import Mathlib

/-!
# Verification of the Java context-bundle builder (`context.py`)

This file gives a shallow embedding of the relationship-resolver of the
repository (the functions of `context.py`) and proves or refutes the frozen
claims about it.

Modelling conventions:

* Python strings are `String` (lists of characters); the concrete regular
  expressions `PACKAGE_RE`, `TYPE_RE`, `IMPORT_RE` and the inheritance
  pattern are implemented exactly, with Python's leftmost-search and
  greedy-backtracking semantics (candidate end-positions are enumerated in
  backtracking priority order and the first complete match wins).
* The file system is a value of type `Env`: `dirs` is the set of existing
  directories, `files` the list of `(root, filename)` pairs produced by
  `os.walk` (a file's path is `root ++ "/" ++ filename`), and
  `readFile` returns `none` exactly when opening/reading the file raises.
* The ten heuristic reverse-dependency patterns OR-ed into `combined_re`,
  and the inline same-package `implements/extends` pattern, are abstracted
  as the environment predicates `Env.combinedMatch target_fqn text` and
  `Env.implExtMatch base_name text`; no claim under scrutiny depends on
  their internal structure, only on how their verdicts are used.
* `list(set(xs))` is modelled as `List.dedup`; the iteration order of a
  Python `set` is unspecified, and no claim depends on the order chosen.
* Mutation of the shared `visited` set / `seen_files` set is modelled by
  threading the set (as a list) through the computation and returning it.
* `recursive_reverse_dependencies` is modelled with an explicit fuel
  parameter (`rrdF`); `rrdF` returns `none` only when fuel is exhausted,
  and the termination theorem shows fuel `depth.toNat + 1` always suffices,
  which is exactly the source's termination argument by `depth`.
-/

/-! ## Small Python-flavoured string utilities -/

/-- Python's `\s` character class (ASCII): space, tab, newline, CR, VT, FF. -/
def pySpace (c : Char) : Bool :=
  c = ' ' || c = '\t' || c = '\n' || c = '\r' || c = '\x0b' || c = '\x0c'

/-- Python's `\w` character class (ASCII fragment): letters, digits, underscore. -/
def pyWord (c : Char) : Bool :=
  c.isAlpha || c.isDigit || c = '_'

/-- Concatenation-map over a list (`flat_map`). -/
def catMap (f : α → List β) : List α → List β
  | [] => []
  | a :: l => f a ++ catMap f l

/-- Does `suf` occur at the end of `l`? -/
def listEndsWith [DecidableEq α] (l suf : List α) : Bool :=
  decide (l.drop (l.length - suf.length) = suf) && decide (suf.length ≤ l.length)

/-- Python `str.endswith`. -/
def strEndsWith (s suf : String) : Bool :=
  listEndsWith s.data suf.data

/-- Does `pre` occur at the start of `l`? -/
def listStartsWith [DecidableEq α] (l pre : List α) : Bool :=
  decide (l.take pre.length = pre)

/-- Python `str.startswith`. -/
def strStartsWith (s pre : String) : Bool :=
  listStartsWith s.data pre.data

/-- Does `needle` occur contiguously anywhere inside `hay`?  (Python `in`.) -/
def listHasSub [DecidableEq α] (hay needle : List α) : Bool :=
  (List.range (hay.length + 1)).any (fun i => decide ((hay.drop i).take needle.length = needle))

/-- Python `needle in hay` on strings. -/
def strHasSub (hay needle : String) : Bool :=
  listHasSub hay.data needle.data

/-- Python `str.lower` (ASCII). -/
def strToLower (s : String) : String :=
  String.mk (s.data.map Char.toLower)

/-- Python `str.split(sep)` for a one-character separator: empty pieces kept. -/
def splitChar (sep : Char) : List Char → List (List Char)
  | [] => [[]]
  | c :: cs =>
    let r := splitChar sep cs
    if c = sep then [] :: r
    else
      match r with
      | [] => [[c]]
      | h :: t => (c :: h) :: t

/-- `sep.join pieces` (Python `str.join`) at the character-list level. -/
def joinChar (sep : Char) : List (List Char) → List Char
  | [] => []
  | [x] => x
  | x :: xs => x ++ sep :: joinChar sep xs

/-- Drop the longest run of characters satisfying `p` from the front. -/
def dropRun (p : Char → Bool) : List Char → List Char
  | [] => []
  | c :: cs => if p c then dropRun p cs else c :: cs

/-- Python `str.strip()`. -/
def pyStrip (s : String) : String :=
  String.mk (dropRun pySpace ((dropRun pySpace s.data.reverse).reverse))

/-- `re.split(r'[<class>]+', s)` on a character class: fuelled splitter;
pieces between delimiter runs, with empty boundary pieces, runs collapsed. -/
def splitRunsF (p : Char → Bool) : Nat → List Char → List (List Char)
  | 0, _ => []
  | n + 1, cs =>
    let piece := cs.takeWhile (fun c => !p c)
    let rest := cs.drop piece.length
    match rest with
    | [] => [piece]
    | _ => piece :: splitRunsF p n (dropRun p rest)

/-- `re.split` on a run of delimiter characters. -/
def splitRuns (p : Char → Bool) (cs : List Char) : List (List Char) :=
  splitRunsF p (cs.length + 1) cs

/-- Python slice `xs[:l]` for an `int` bound `l` (negative counts from the end). -/
def pySlice (l : Int) (xs : List String) : List String :=
  if 0 ≤ l then xs.take l.toNat else xs.take (xs.length - (-l).toNat)

/-- `list(set(xs))`: deduplication.  Python's set order is unspecified; we fix
the order produced by `List.dedup`.  No claim depends on the order. -/
def pySetList (xs : List String) : List String :=
  xs.dedup

/-- `os.path.join` for the relative second components used by the source. -/
def pathJoin (a b : String) : String :=
  a ++ ("/") ++ b

/-! ## The concrete regular expressions of `context.py`

Each Python pattern is compiled by hand into a matcher that enumerates
candidate end positions in Python's backtracking priority order (greedy
pieces longest-first, alternations left-to-right) and commits to the first
complete match, exactly as CPython's `re` engine does. -/

/-- Does the literal `lit` occur at position `i` of `cs`? -/
def litAt (lit : List Char) (cs : List Char) (i : Nat) : Bool :=
  decide ((cs.drop i).take lit.length = lit)

/-- Length of the maximal run of characters satisfying `p` starting at `i`. -/
def runLen (p : Char → Bool) (cs : List Char) (i : Nat) : Nat :=
  ((cs.drop i).takeWhile p).length

/-- Candidate end positions of a greedy `p*` starting at `i`: longest first. -/
def starCands (p : Char → Bool) (cs : List Char) (i : Nat) : List Nat :=
  let n := runLen p cs i
  (List.range (n + 1)).map (fun k => i + n - k)

/-- Candidate end positions of a greedy `p+` starting at `i`: longest first. -/
def plusCands (p : Char → Bool) (cs : List Char) (i : Nat) : List Nat :=
  let n := runLen p cs i
  (List.range n).map (fun k => i + n - k)

/-- Candidate (end, captured text) pairs of a greedy capturing `p+`. -/
def plusCandsCap (p : Char → Bool) (cs : List Char) (i : Nat) : List (Nat × List Char) :=
  let n := runLen p cs i
  (List.range n).map (fun k => (i + n - k, (cs.drop i).take (n - k)))

/-- Candidate ends of an alternation of literals, in alternation order. -/
def altLits (lits : List (List Char)) (cs : List Char) (i : Nat) : List Nat :=
  lits.foldr (fun l acc => if litAt l cs i then (i + l.length) :: acc else acc) []

/-- Candidate ends of an optional alternation of literals (greedy `(?:a|b)?`). -/
def optAltCands (lits : List (List Char)) (cs : List Char) (i : Nat) : List Nat :=
  altLits lits cs i ++ [i]

/-- Is `i` at a `re.MULTILINE` line start (`^`)? -/
def lineStart (cs : List Char) (i : Nat) : Bool :=
  match i with
  | 0 => true
  | j + 1 => cs.get? j == some '\n'

/-- Candidate ends of `(?:\([^)]*\))?` (greedy: with-parentheses first). -/
def parenCands (cs : List Char) (j : Nat) : List Nat :=
  (if cs.get? j == some '(' then
    (starCands (fun c => !(c == ')')) cs (j + 1)).foldr
      (fun m acc => if cs.get? m == some ')' then (m + 1) :: acc else acc) []
   else []) ++ [j]

/-- Candidate ends of one annotation `@\w+(?:\([^)]*\))?\s*`. -/
def annotCands (cs : List Char) (i : Nat) : List Nat :=
  if cs.get? i == some '@' then
    catMap (fun j => catMap (fun k => starCands pySpace cs k) (parenCands cs j))
      (plusCands pyWord cs (i + 1))
  else []

/-- Greedy star of the annotation piece (fuelled; an iteration consumes ≥ 2
characters, so fuel `cs.length + 1` is always enough). -/
def annotStar : Nat → List Char → Nat → List Nat
  | 0, _, i => [i]
  | n + 1, cs, i =>
    catMap (fun j => annotStar n cs j) ((annotCands cs i).filter (fun j => i < j)) ++ [i]

/-- A match of `TYPE_RE`: start, end, declaration kind and type name. -/
structure TyM where
  ts : Nat
  te : Nat
  kind : String
  name : String
deriving DecidableEq

/-- Maximal identifier `[A-Za-z_][A-Za-z0-9_]*` at position `i` (group 2 of
`TYPE_RE` is greedy and nothing follows it, so only the maximal run can
complete a match). -/
def identCand (cs : List Char) (i : Nat) : Option (Nat × List Char) :=
  match cs.get? i with
  | some c =>
    if c.isAlpha || c = '_' then
      let n := runLen (fun d => d.isAlpha || d.isDigit || d = '_') cs (i + 1)
      some (i + 1 + n, (cs.drop i).take (1 + n))
    else none
  | none => none

/-- The four type keywords, in alternation order. -/
def kwList : List (List Char) :=
  [("class").data, ("interface").data, ("enum").data, ("record").data]

/-- Attempt `TYPE_RE` at position `i` (Python backtracking order). -/
def typeMatchAt (cs : List Char) (i : Nat) : Option TyM :=
  (annotStar (cs.length + 1) cs i).findSome? fun p1 =>
    (optAltCands [("public").data, ("protected").data, ("private").data] cs p1).findSome? fun p2 =>
      (starCands pySpace cs p2).findSome? fun p3 =>
        (optAltCands [("abstract").data, ("final").data, ("static").data] cs p3).findSome? fun p4 =>
          (starCands pySpace cs p4).findSome? fun p5 =>
            kwList.findSome? fun kw =>
              if litAt kw cs p5 then
                (plusCands pySpace cs (p5 + kw.length)).findSome? fun p6 =>
                  match identCand cs p6 with
                  | some (e, nm) => some ⟨i, e, String.mk kw, String.mk nm⟩
                  | none => none
              else none

/-- `TYPE_RE.search`: leftmost match. -/
def TYPE_RE_search (cs : List Char) : Option TyM :=
  (List.range (cs.length + 1)).findSome? fun i => typeMatchAt cs i

/-- Attempt `PACKAGE_RE` (`^\s*package\s+([\w.]+)\s*;`, MULTILINE) at `i`;
returns group 1. -/
def pkgMatchAt (cs : List Char) (i : Nat) : Option (List Char) :=
  if lineStart cs i then
    (starCands pySpace cs i).findSome? fun a =>
      if litAt (("package").data) cs a then
        (plusCands pySpace cs (a + 7)).findSome? fun b =>
          (plusCandsCap (fun c => pyWord c || c = '.') cs b).findSome? fun g =>
            (starCands pySpace cs g.1).findSome? fun d =>
              if cs.get? d == some ';' then some g.2 else none
      else none
  else none

/-- `PACKAGE_RE.search(...)`, returning `group(1)`. -/
def PACKAGE_RE_search (cs : List Char) : Option String :=
  (List.range (cs.length + 1)).findSome? fun i => (pkgMatchAt cs i).map String.mk

/-- Attempt `IMPORT_RE` (`^\s*import\s+([a-zA-Z0-9_.*]+)\s*;\s*$`, MULTILINE)
at `i`; returns (match end, group 1). -/
def impMatchAt (cs : List Char) (i : Nat) : Option (Nat × String) :=
  if lineStart cs i then
    (starCands pySpace cs i).findSome? fun a =>
      if litAt (("import").data) cs a then
        (plusCands pySpace cs (a + 6)).findSome? fun b =>
          (plusCandsCap (fun c => c.isAlpha || c.isDigit || c = '_' || c = '.' || c = '*') cs b).findSome? fun g =>
            (starCands pySpace cs g.1).findSome? fun d =>
              if cs.get? d == some ';' then
                (starCands pySpace cs (d + 1)).findSome? fun e =>
                  if e == cs.length || cs.get? e == some '\n' then some (e, String.mk g.2)
                  else none
              else none
      else none
  else none

/-- First match of `m` at a position ≥ `i` (bounded by `bound`):
returns (start, end, payload). -/
def reSearchFrom (m : Nat → Option (Nat × γ)) (bound : Nat) (i : Nat) : Option (Nat × Nat × γ) :=
  (List.range (bound + 1 - i)).findSome? fun d => (m (i + d)).map fun r => (i + d, r.1, r.2)

/-- `re.findall`: non-overlapping leftmost matches, continuing at each match
end (fuelled; every match ends strictly right of its start here). -/
def findAllF (m : Nat → Option (Nat × γ)) (bound : Nat) : Nat → Nat → List γ
  | 0, _ => []
  | fuel + 1, i =>
    match reSearchFrom m bound i with
    | none => []
    | some (s, e, g) => g :: findAllF m bound fuel (if s < e then e else e + 1)

/-- `IMPORT_RE.findall(code)`. -/
def IMPORT_RE_findAll (cs : List Char) : List String :=
  findAllF (impMatchAt cs) cs.length (cs.length + 1) 0

/-- Attempt the inheritance pattern `(?:extends|implements)\s+([A-Za-z0-9_.,\s<>]+)`
at `i`; returns (match end, group 1).  The capturing group is greedy and final,
so its maximal candidate decides the match. -/
def inhMatchAt (cs : List Char) (i : Nat) : Option (Nat × String) :=
  (altLits [("extends").data, ("implements").data] cs i).findSome? fun j =>
    (plusCands pySpace cs j).findSome? fun k =>
      match plusCandsCap
          (fun c => c.isAlpha || c.isDigit || c = '_' || c = '.' || c = ',' || pySpace c || c = '<' || c = '>')
          cs k with
      | [] => none
      | g :: _ => some (g.1, String.mk g.2)

/-- `re.findall` of the inheritance pattern. -/
def INHERIT_RE_findAll (cs : List Char) : List String :=
  findAllF (inhMatchAt cs) cs.length (cs.length + 1) 0

/-! ## `extract_full_type` -/

/-- The brace-counting loop of `extract_full_type`: starting at running depth
`depth`, return the offset of the first `}` whose decrement brings the running
count to zero, or `none` if the scan falls off the end. -/
def braceScan : List Char → Int → Option Nat
  | [], _ => none
  | c :: cs, depth =>
    if c = '{' then (braceScan cs (depth + 1)).map (· + 1)
    else if c = '}' then
      if depth - 1 = 0 then some 0 else (braceScan cs (depth - 1)).map (· + 1)
    else (braceScan cs depth).map (· + 1)

/-- `extract_full_type(code)`: the full first type declaration, by brace
counting from the end of the `TYPE_RE` match; the input unchanged when no
declaration is found or the scan never returns to depth zero. -/
def extract_full_type (code : String) : String :=
  match TYPE_RE_search code.data with
  | none => code
  | some m =>
    match braceScan (code.data.drop m.te) 0 with
    | none => code
    | some k => String.mk ((code.data.take (m.te + k + 1)).drop m.ts)

/-- Contribution of one character to the `{`/`}` balance. -/
def chDelta (c : Char) : Int :=
  if c = '{' then 1 else if c = '}' then -1 else 0

/-- Running `{`/`}` balance of a character list. -/
def chBal : List Char → Int
  | [] => 0
  | c :: cs => chDelta c + chBal cs

/-- `k` is the first position of `cs` at which a closing brace brings the
running brace balance (started at zero) back to zero — i.e. the matching
top-level closing brace of the scan. -/
def leastBalancedClose (cs : List Char) (k : Nat) : Prop :=
  cs.get? k = some '}' ∧ chBal (cs.take (k + 1)) = 0 ∧
    ∀ j < k, ¬ (cs.get? j = some '}' ∧ chBal (cs.take (j + 1)) = 0)

instance (cs : List Char) (k : Nat) : Decidable (leastBalancedClose cs k) := by
  unfold leastBalancedClose
  exact inferInstance

/-! ## The file-system environment -/

/-- The ambient file system and the abstracted heuristic text predicates.

`files` lists every file as a `(root, filename)` pair as `os.walk` yields it
(the file's path is `root ++ "/" ++ filename`); `dirs` lists existing
directories; `readFile` returns `none` exactly when opening/reading raises.
`combinedMatch target_fqn text` models `combined_re.search(text)` (the ten
OR-ed reverse-dependency patterns built from `target_fqn`), and
`implExtMatch base_name text` models the inline same-package
`\b(implements|extends)\b[\s\S]*?\b<base>\b` search. -/
structure Env where
  dirs : List String
  files : List (String × String)
  readFile : String → Option String
  combinedMatch : String → String → Bool
  implExtMatch : String → String → Bool

/-- The `(root, filename)` pairs `os.walk dir` yields from the environment. -/
def walkPairs (env : Env) (dir : String) : List (String × String) :=
  env.files.filter (fun rf => rf.1 == dir || strStartsWith rf.1 (dir ++ ("/")))

/-- `os.path.exists`. -/
def envExists (env : Env) (p : String) : Bool :=
  env.files.any (fun rf => rf.1 ++ ("/") ++ rf.2 == p) || env.dirs.contains p

/-! ## `resolve_import` and inheritance resolution -/

/-- `java_package_to_path`: replace every dot with a slash. -/
def java_package_to_path (package_name : String) : String :=
  String.mk (package_name.data.map (fun c => if c = '.' then '/' else c))

/-- `resolve_import(import_name, repo_path)`. -/
def resolve_import (env : Env) (import_name repo_path : String) : List String :=
  let base_src := pathJoin repo_path ("src/main/java")
  if strEndsWith import_name (".*") then
    let pkg_path := java_package_to_path (String.mk (import_name.data.dropLast.dropLast))
    let full_dir := pathJoin base_src pkg_path
    if env.dirs.contains full_dir then
      (walkPairs env full_dir).foldr
        (fun rf acc => if strEndsWith rf.2 (".java") then pathJoin rf.1 rf.2 :: acc else acc) []
    else []
  else
    let file_path := pathJoin base_src (java_package_to_path import_name ++ (".java"))
    if envExists env file_path then [file_path] else []

/-- `find_inheritance_dependencies(code, repo_path)`: each inheritance-clause
match is stripped, split on `[,\s]+`, empty parts skipped, and every part is
resolved as an import. -/
def find_inheritance_dependencies (env : Env) (code : String) (repo_path : String) : List String :=
  catMap (fun m =>
      catMap (fun part =>
          if part = ("") then [] else resolve_import env part repo_path)
        ((splitRuns (fun c => c = ',' || pySpace c) (pyStrip m).data).map String.mk))
    (INHERIT_RE_findAll code.data)

/-! ## Reverse-dependency search -/

/-- `re.search(r'(?i)test\.java$', f)`: case-insensitive suffix, where `$`
also matches just before a trailing newline. -/
def isTestName (f : String) : Bool :=
  strEndsWith (strToLower f) ("test.java") || strEndsWith (strToLower f) ("test.java\n")

/-- The per-file loop of `find_reverse_dependencies`, over the walk list. -/
def findFiles (env : Env) (package_name base_name target_fqn : String) (include_tests : Bool) :
    List (String × String) → List String
  | [] => []
  | rf :: rest =>
    let tail := findFiles env package_name base_name target_fqn include_tests rest
    if !strEndsWith rf.2 (".java") then tail
    else if !include_tests && isTestName rf.2 then tail
    else
      let path := rf.1 ++ ("/") ++ rf.2
      match env.readFile path with
      | none => tail
      | some text =>
        if (PACKAGE_RE_search text.data == some package_name) && env.implExtMatch base_name text then
          path :: tail
        else if env.combinedMatch target_fqn text then path :: tail
        else tail

/-- `find_reverse_dependencies(repo_path, target_fqn, include_tests)`. -/
def find_reverse_dependencies (env : Env) (repo_path target_fqn : String)
    (include_tests : Bool) : List String :=
  let parts := splitChar '.' target_fqn.data
  let base_name := String.mk (parts.getLastD [])
  let package_name := String.mk (joinChar '.' parts.dropLast)
  pySetList (findFiles env package_name base_name target_fqn include_tests
    (walkPairs env repo_path))

/-- The `@Qualifier(["']cls["'])` test of `find_bean_configurations`
(the class name contains no regex metacharacters, so the search is a plain
substring test over the four quote combinations). -/
def qualifierHit (text cls : String) : Bool :=
  strHasSub text ("@Qualifier(\x22" ++ cls ++ "\x22)") ||
  strHasSub text ("@Qualifier(\x27" ++ cls ++ "\x27)") ||
  strHasSub text ("@Qualifier(\x22" ++ cls ++ "\x27)") ||
  strHasSub text ("@Qualifier(\x27" ++ cls ++ "\x22)")

/-- The per-file loop of `find_bean_configurations`. -/
def beanFiles (env : Env) (cls : String) : List (String × String) → List String
  | [] => []
  | rf :: rest =>
    let tail := beanFiles env cls rest
    if !strEndsWith rf.2 (".java") then tail
    else
      let path := rf.1 ++ ("/") ++ rf.2
      match env.readFile path with
      | none => tail
      | some text =>
        if (strHasSub text ("@Configuration") && strHasSub text ("new " ++ cls)) ||
           (strHasSub text ("@Bean") && strHasSub text cls) ||
           qualifierHit text cls
        then path :: tail else tail

/-- `find_bean_configurations(repo_path, target_class_name)`. -/
def find_bean_configurations (env : Env) (repo_path target_class_name : String) : List String :=
  beanFiles env target_class_name (walkPairs env repo_path)

/-! ## Recursive reverse-dependency traversal -/

/-- The FQN recovered from a file's text inside the traversal loop:
`pkg.group(1) ++ "." ++ cls.group(2)` when both searches succeed. -/
def fqnOf (code : String) : Option String :=
  match PACKAGE_RE_search code.data, TYPE_RE_search code.data with
  | some pkg, some tm => some (pkg ++ (".") ++ tm.name)
  | _, _ => none

/-- `if limit: files = files[:limit]` — the Python truthiness test on the
optional limit (both `None` and `0` leave the list untouched). -/
def applyLimit : Option Int → List String → List String
  | some l, fs => if l ≠ 0 then pySlice l fs else fs
  | none, fs => fs

/-- One iteration of the `for f in files` loop of
`recursive_reverse_dependencies`: append `f`, then try to read it, recover
its FQN and recurse (the recursion is supplied as `rec`); a failed read or an
unrecoverable FQN skips only the expansion.  `none` aborts (out of fuel). -/
def rrdStep (env : Env)
    (rec : String → List (String × Nat) → Option (List String × List (String × Nat)))
    (acc : Option (List String × List (String × Nat))) (f : String) :
    Option (List String × List (String × Nat)) :=
  match acc with
  | none => none
  | some (results, visited) =>
    match env.readFile f with
    | none => some (results ++ [f], visited)
    | some code =>
      match fqnOf code with
      | none => some (results ++ [f], visited)
      | some fqn2 =>
        match rec fqn2 visited with
        | none => none
        | some (sub, visited2) => some (results ++ f :: sub, visited2)

/-- Fuelled `recursive_reverse_dependencies(repo_path, target_fqn, depth,
include_tests, limit, visited, current_depth)`; returns the result list and
the final visited set, or `none` when the fuel runs out.  The fuel only pays
for nested recursive calls; the termination theorem shows `depth.toNat + 1`
always suffices. -/
def rrdF : Nat → Env → String → String → Int → Bool → Option Int →
    List (String × Nat) → Nat → Option (List String × List (String × Nat))
  | 0, _, _, _, _, _, _, _, _ => none
  | n + 1, env, repo_path, target_fqn, depth, include_tests, limit, visited, current_depth =>
    if depth ≤ 0 then some ([], visited)
    else if (target_fqn, current_depth) ∈ visited then some ([], visited)
    else
      let files := applyLimit limit (find_reverse_dependencies env repo_path target_fqn include_tests)
      match files.foldl
          (rrdStep env (fun fq v =>
            rrdF n env repo_path fq (depth - 1) include_tests limit v (current_depth + 1)))
          (some ([], (target_fqn, current_depth) :: visited)) with
      | none => none
      | some (results, visitedF) => some (pySetList results, visitedF)

/-- `recursive_reverse_dependencies`: the fuelled traversal run with enough
fuel.  The first component is the returned list, the second the final state
of the (mutated) visited set. -/
def recursive_reverse_dependencies (env : Env) (repo_path target_fqn : String) (depth : Int)
    (include_tests : Bool) (limit : Option Int) (visited : List (String × Nat))
    (current_depth : Nat) : List String × List (String × Nat) :=
  (rrdF (depth.toNat + 1) env repo_path target_fqn depth include_tests limit visited
    current_depth).getD ([], visited)

/-- `p` is reachable from `fqn` by a reverse-dependency chain of exactly ≤ `k`
hops: either `p` is found directly, or some found file's recovered FQN reaches
`p` in one hop fewer. -/
def chainReach (env : Env) (repo_path : String) (include_tests : Bool) :
    Nat → String → String → Prop
  | 0, _, _ => False
  | k + 1, fqn, p =>
    p ∈ find_reverse_dependencies env repo_path fqn include_tests ∨
    ∃ g ∈ find_reverse_dependencies env repo_path fqn include_tests, ∃ c,
      env.readFile g = some c ∧ ∃ fqn2, fqnOf c = some fqn2 ∧
        chainReach env repo_path include_tests k fqn2 p

/-! ## Context assembly (`prepare_context_multi`) -/

/-- One emitted chunk `=== <label> ===\n# <path>\n\n<content>\n\n` of the
output bundle, kept structured. -/
structure Chunk where
  header : String
  path : String
  content : String
deriving DecidableEq

/-- Emit one related file: skip if its path was already seen, otherwise mark
it seen, read it (an unguarded read: failure aborts the whole run) and append
a chunk whose content passes through `xf`. -/
def emitOne (env : Env) (header : String) (xf : String → String)
    (st : Option (List String × List Chunk)) (fp : String) :
    Option (List String × List Chunk) :=
  match st with
  | none => none
  | some (seen, chunks) =>
    if fp ∈ seen then some (seen, chunks)
    else
      match env.readFile fp with
      | none => none
      | some txt => some (fp :: seen, chunks ++ [⟨header, fp, xf txt⟩])

/-- Process one target file of `prepare_context_multi`: missing targets are
skipped; otherwise imports, inheritance, reverse dependencies and bean
configurations are emitted in this order through the shared seen-set.
The unused identifier extraction and all printing are omitted. -/
def processTarget (env : Env) (repo_path : String) (depth : Int) (include_tests : Bool)
    (reverse_limit : Option Int) (st : Option (List String × List Chunk))
    (target_file_path : String) : Option (List String × List Chunk) :=
  match st with
  | none => none
  | some (seen, chunks) =>
    let target_full_path := pathJoin repo_path target_file_path
    if !envExists env target_full_path then some (seen, chunks)
    else
      match env.readFile target_full_path with
      | none => none
      | some code =>
        let imports := IMPORT_RE_findAll code.data
        let current_pkg := PACKAGE_RE_search code.data
        let current_class := (TYPE_RE_search code.data).map TyM.name
        let st1 := imports.foldl
          (fun acc imp =>
            (resolve_import env imp repo_path).foldl
              (emitOne env (("=== IMPORT ") ++ imp ++ (" ===")) extract_full_type) acc)
          (some (seen, chunks))
        let st2 := (find_inheritance_dependencies env code repo_path).foldl
          (emitOne env ("=== EXTENDS / IMPLEMENTS ===") id) st1
        let st3 :=
          match current_pkg, current_class with
          | some pk, some cl =>
            ((recursive_reverse_dependencies env repo_path (pk ++ (".") ++ cl) depth
                include_tests reverse_limit [] 1).1).foldl
              (emitOne env ("=== REVERSE DEPENDENCY ===") id) st2
          | _, _ => st2
        match current_class with
        | some cl =>
          (find_bean_configurations env repo_path cl).foldl
            (emitOne env ("=== BEAN / CONFIGURATION ===") id) st3
        | none => st3

/-- `prepare_context_multi(repo_path, target_files, depth, include_tests,
reverse_limit)`: the final seen-set and the ordered chunk list, or `none`
when an unguarded file read raises.  Output-file writing and the header line
are outside the model. -/
def prepare_context_multi (env : Env) (repo_path : String) (target_files : List String)
    (depth : Int) (include_tests : Bool) (reverse_limit : Option Int) :
    Option (List String × List Chunk) :=
  target_files.foldl (processTarget env repo_path depth include_tests reverse_limit)
    (some ([], []))

/-! ## Theorems about `extract_full_type` (claims C5, C6) -/

/-- The brace-counting loop stops exactly at the first closing brace that
brings the running balance (relative to the starting depth `d`) to zero. -/
theorem braceScan_of_least : ∀ (cs : List Char) (d : Int) (k : Nat),
    cs.get? k = some '}' → d + chBal (cs.take (k + 1)) = 0 →
    (∀ j < k, ¬ (cs.get? j = some '}' ∧ d + chBal (cs.take (j + 1)) = 0)) →
    braceScan cs d = some k := by
  intro cs
  induction cs with
  | nil => intro d k h _ _; simp at h
  | cons c cs ih =>
    intro d k hget hbal hmin
    match k with
    | 0 =>
      have hc : c = '}' := by simpa using hget
      subst hc
      have hd : d - 1 = 0 := by
        simp only [List.take_succ_cons, List.take_zero, chBal, chDelta] at hbal
        simp at hbal
        omega
      simp [braceScan, hd]
    | k + 1 =>
      have hget' : cs.get? k = some '}' := hget
      have hbal2 : d + (chDelta c + chBal (cs.take (k + 1))) = 0 := by
        simpa only [List.take_succ_cons, chBal] using hbal
      by_cases hc : c = '{'
      · subst hc
        have hbal' : (d + 1) + chBal (cs.take (k + 1)) = 0 := by
          have : chDelta '{' = 1 := by decide
          omega
        have hmin' : ∀ j < k, ¬ (cs.get? j = some '}' ∧ (d + 1) + chBal (cs.take (j + 1)) = 0) := by
          intro j hj hcon
          refine hmin (j + 1) (Nat.succ_lt_succ hj) ⟨hcon.1, ?_⟩
          have h1 : chDelta '{' = 1 := by decide
          have h2 := hcon.2
          simp only [List.take_succ_cons, chBal, h1]
          omega
        have hrec := ih (d + 1) k hget' hbal' hmin'
        simp [braceScan, hrec]
      · by_cases hc2 : c = '}'
        · subst hc2
          have hdelta : chDelta '}' = -1 := by decide
          have hne : ¬ (d - 1 = 0) := by
            intro h0
            refine hmin 0 (Nat.succ_pos k) ⟨rfl, ?_⟩
            simp only [List.take_succ_cons, List.take_zero, chBal, hdelta]
            omega
          have hbal' : (d - 1) + chBal (cs.take (k + 1)) = 0 := by omega
          have hmin' : ∀ j < k, ¬ (cs.get? j = some '}' ∧ (d - 1) + chBal (cs.take (j + 1)) = 0) := by
            intro j hj hcon
            refine hmin (j + 1) (Nat.succ_lt_succ hj) ⟨hcon.1, ?_⟩
            have h2 := hcon.2
            simp only [List.take_succ_cons, chBal, hdelta]
            omega
          have hrec := ih (d - 1) k hget' hbal' hmin'
          simp [braceScan, hne, hrec]
        · have hdelta : chDelta c = 0 := by simp [chDelta, hc, hc2]
          have hbal' : d + chBal (cs.take (k + 1)) = 0 := by omega
          have hmin' : ∀ j < k, ¬ (cs.get? j = some '}' ∧ d + chBal (cs.take (j + 1)) = 0) := by
            intro j hj hcon
            refine hmin (j + 1) (Nat.succ_lt_succ hj) ⟨hcon.1, ?_⟩
            have h2 := hcon.2
            simp only [List.take_succ_cons, chBal, hdelta]
            omega
          have hrec := ih d k hget' hbal' hmin'
          simp [braceScan, hc, hc2, hrec]

/-- C5 (amended).  When a type declaration is found and `k` is the first
closing brace whose decrement returns the running balance — started at zero
from the END of the declaration match — to zero, `extract_full_type` returns
the substring from the match start through that brace.  When no `}` precedes
the first `{` after the match this brace is exactly the matching top-level
closing brace, so all nested braces are included and no inner brace ends the
extraction. -/
theorem extract_full_type_balanced (code : String) (m : TyM) (k : Nat)
    (hm : TYPE_RE_search code.data = some m)
    (hk : leastBalancedClose (code.data.drop m.te) k) :
    extract_full_type code = String.mk ((code.data.take (m.te + k + 1)).drop m.ts) := by
  obtain ⟨h1, h2, h3⟩ := hk
  have hscan : braceScan (code.data.drop m.te) 0 = some k := by
    refine braceScan_of_least _ 0 k h1 (by omega) ?_
    intro j hj hcon
    exact h3 j hj ⟨hcon.1, by omega⟩
  unfold extract_full_type
  rw [hm]
  show (match braceScan (code.data.drop m.te) 0 with
        | none => code
        | some k => String.mk ((code.data.take (m.te + k + 1)).drop m.ts)) =
      String.mk ((code.data.take (m.te + k + 1)).drop m.ts)
  rw [hscan]

/-- Witness for C5 (amended): a type body with a nested inner block; the
extraction ends at the top-level closing brace (offset 15 after the match
end 7), not at the inner one (offset 13), and includes the nested braces. -/
theorem extract_full_type_balanced_witness :
    TYPE_RE_search ("class A \x7b int f() \x7b \x7d \x7d tail").data =
        some ⟨0, 7, ("class"), ("A")⟩ ∧
    leastBalancedClose (("class A \x7b int f() \x7b \x7d \x7d tail").data.drop 7) 15 ∧
    extract_full_type ("class A \x7b int f() \x7b \x7d \x7d tail") =
        ("class A \x7b int f() \x7b \x7d \x7d") := by
  refine ⟨by decide, by decide, ?_⟩
  have h := extract_full_type_balanced ("class A \x7b int f() \x7b \x7d \x7d tail")
    ⟨0, 7, ("class"), ("A")⟩ 15 (by decide) (by decide)
  simpa using h

/-- Modelled from the CLAIM's words (not from the source), for comparison:
after the type match, locate the FIRST OPENING brace, and return the
substring through the closing brace that returns the depth count, started
at that opening brace, to zero (`none` when the description does not apply). -/
def extract_full_type_claim (code : String) : Option String :=
  match TYPE_RE_search code.data with
  | none => none
  | some m =>
    let tail := code.data.drop m.te
    match tail.findIdx? (fun c => c == '{') with
    | none => none
    | some b =>
      match braceScan (tail.drop b) 0 with
      | some k => some (String.mk ((code.data.take (m.te + b + k + 1)).drop m.ts))
      | none => none

/-- C5 counterexample.  On `"class A}{{}}"` the source counts from the end of
the declaration match (depth dips to −1 at the stray `}`), so it stops at the
inner closing brace and returns `"class A}{{}"`; counting from the first
opening brace, as the claim states, would return the whole string. -/
theorem extract_full_type_c5_counterexample :
    extract_full_type ("class A\x7d\x7b\x7b\x7d\x7d") = ("class A\x7d\x7b\x7b\x7d") ∧
    extract_full_type_claim ("class A\x7d\x7b\x7b\x7d\x7d") =
        some ("class A\x7d\x7b\x7b\x7d\x7d") ∧
    extract_full_type ("class A\x7d\x7b\x7b\x7d\x7d") ≠ ("class A\x7d\x7b\x7b\x7d\x7d") := by
  refine ⟨by decide, by decide, by decide⟩

/-- C6.  When no type declaration is recognized, `extract_full_type` returns
its input unchanged. -/
theorem extract_full_type_no_decl (code : String)
    (h : TYPE_RE_search code.data = none) : extract_full_type code = code := by
  unfold extract_full_type
  rw [h]

/-- Witness for C6 on a declaration-free input. -/
theorem extract_full_type_no_decl_witness :
    extract_full_type ("int x = 5;") = ("int x = 5;") :=
  extract_full_type_no_decl ("int x = 5;") (by decide)

/-! ## Theorems about `resolve_import` (claim C7) -/

theorem mem_collect (q : α → Bool) (f : α → β) (p : β) :
    ∀ l : List α,
      (p ∈ l.foldr (fun rf acc => if q rf then f rf :: acc else acc) []) ↔
        ∃ rf, rf ∈ l ∧ q rf = true ∧ p = f rf := by
  intro l
  induction l with
  | nil => simp
  | cons a l ih =>
    simp only [List.foldr_cons]
    by_cases hq : q a = true
    · simp only [if_pos hq, List.mem_cons, ih]
      constructor
      · rintro (h | ⟨rf, h1, h2, h3⟩)
        · exact ⟨a, Or.inl rfl, hq, h⟩
        · exact ⟨rf, Or.inr h1, h2, h3⟩
      · rintro ⟨rf, (rfl | h1), h2, h3⟩
        · exact Or.inl h3
        · exact Or.inr ⟨rf, h1, h2, h3⟩
    · simp only [if_neg hq, ih, List.mem_cons]
      constructor
      · rintro ⟨rf, h1, h2, h3⟩
        exact ⟨rf, Or.inr h1, h2, h3⟩
      · rintro ⟨rf, (rfl | h1), h2, h3⟩
        · exact absurd h2 hq
        · exact ⟨rf, h1, h2, h3⟩

/-- C7.  A non-wildcard import resolves to the single conventional candidate
path, kept only if it exists (so at most one result); a wildcard import
resolves to exactly the `.java` files under the conventional package
directory found by the recursive walk, and to nothing when that directory
does not exist. -/
theorem resolve_import_characterization (env : Env) (import_name repo_path : String) :
    (strEndsWith import_name (".*") = false →
      resolve_import env import_name repo_path =
        (if envExists env (pathJoin (pathJoin repo_path ("src/main/java"))
            (java_package_to_path import_name ++ (".java"))) then
          [pathJoin (pathJoin repo_path ("src/main/java"))
            (java_package_to_path import_name ++ (".java"))]
         else []) ∧
      (resolve_import env import_name repo_path).length ≤ 1) ∧
    (strEndsWith import_name (".*") = true →
      ∀ p, p ∈ resolve_import env import_name repo_path ↔
        (env.dirs.contains (pathJoin (pathJoin repo_path ("src/main/java"))
            (java_package_to_path (String.mk import_name.data.dropLast.dropLast))) = true ∧
         ∃ rf, rf ∈ walkPairs env (pathJoin (pathJoin repo_path ("src/main/java"))
            (java_package_to_path (String.mk import_name.data.dropLast.dropLast))) ∧
           strEndsWith rf.2 (".java") = true ∧ p = pathJoin rf.1 rf.2)) := by
  constructor
  · intro h
    constructor
    · simp only [resolve_import, h]
      simp
    · simp only [resolve_import, h]
      simp only [Bool.false_eq_true, if_false]
      split
      · simp
      · simp
  · intro h p
    simp only [resolve_import, h, if_true]
    by_cases hdir : env.dirs.contains (pathJoin (pathJoin repo_path ("src/main/java"))
        (java_package_to_path (String.mk import_name.data.dropLast.dropLast))) = true
    · simp only [hdir, if_true, true_and]
      exact mem_collect _ _ p _
    · simp only [hdir]
      simp only [Bool.not_eq_true] at hdir
      simp [hdir]

/-- A tiny concrete file system for exercising `resolve_import`. -/
def envC7 : Env :=
  ⟨[("repo/src/main/java/a/b")],
   [(("repo/src/main/java/a/b"), ("C.java")), (("repo/src/main/java/a/b"), ("D.txt")),
    (("repo/src/main/java/a/b/sub"), ("E.java"))],
   fun _ => none, fun _ _ => false, fun _ _ => false⟩

/-- Witness for C7: the plain import resolves to its one existing candidate;
the wildcard import picks up a `.java` file from a nested subdirectory. -/
theorem resolve_import_characterization_witness :
    resolve_import envC7 ("a.b.C") ("repo") = [("repo/src/main/java/a/b/C.java")] ∧
    (("repo/src/main/java/a/b/sub/E.java") ∈ resolve_import envC7 ("a.b.*") ("repo")) := by
  constructor
  · have h := ((resolve_import_characterization envC7 ("a.b.C") ("repo")).1 (by decide)).1
    rw [h]
    decide
  · have h := ((resolve_import_characterization envC7 ("a.b.*") ("repo")).2 (by decide)
      (("repo/src/main/java/a/b/sub/E.java"))).2
    apply h
    exact ⟨by decide, ⟨("repo/src/main/java/a/b/sub"), ("E.java")⟩, by decide, by decide, by decide⟩

/-! ## Generic lemmas about the traversal loop -/

theorem foldl_rrdStep_none (env : Env)
    (rec : String → List (String × Nat) → Option (List String × List (String × Nat))) :
    ∀ fs : List String, fs.foldl (rrdStep env rec) none = none := by
  intro fs
  induction fs with
  | nil => rfl
  | cons f fs ih => exact ih

theorem rrdStep_isSome (env : Env)
    (rec : String → List (String × Nat) → Option (List String × List (String × Nat)))
    (res : List String) (vis : List (String × Nat)) (f : String)
    (hrec : ∀ fq v, (rec fq v).isSome = true) :
    (rrdStep env rec (some (res, vis)) f).isSome = true := by
  cases hr : env.readFile f with
  | none => simp [rrdStep, hr]
  | some c =>
    cases hfq : fqnOf c with
    | none => simp [rrdStep, hr, hfq]
    | some fq =>
      have h := hrec fq vis
      cases hrc : rec fq vis with
      | none => rw [hrc] at h; simp at h
      | some r =>
        cases r with
        | mk sub v2 => simp [rrdStep, hr, hfq, hrc]

theorem foldl_rrdStep_isSome (env : Env)
    (rec : String → List (String × Nat) → Option (List String × List (String × Nat)))
    (hrec : ∀ fq v, (rec fq v).isSome = true) :
    ∀ (fs : List String) (acc : Option (List String × List (String × Nat))),
      acc.isSome = true → ((fs.foldl (rrdStep env rec) acc).isSome = true) := by
  intro fs
  induction fs with
  | nil => intro acc h; exact h
  | cons f fs ih =>
    intro acc h
    match acc with
    | some (res, vis) =>
      exact ih (rrdStep env rec (some (res, vis)) f) (rrdStep_isSome env rec res vis f hrec)

/-- One-step unfolding of the fuelled traversal. -/
theorem rrdF_succ (n : Nat) (env : Env) (repo fqn : String) (d : Int) (it : Bool)
    (lim : Option Int) (vis : List (String × Nat)) (cd : Nat) :
    rrdF (n + 1) env repo fqn d it lim vis cd =
      (if d ≤ 0 then some ([], vis)
       else if (fqn, cd) ∈ vis then some ([], vis)
       else
         match (applyLimit lim (find_reverse_dependencies env repo fqn it)).foldl
             (rrdStep env (fun fq v => rrdF n env repo fq (d - 1) it lim v (cd + 1)))
             (some ([], (fqn, cd) :: vis)) with
         | none => none
         | some (results, visitedF) => some (pySetList results, visitedF)) := rfl

/-- C10 core: fuel strictly above `depth.toNat` never runs out — the
traversal terminates by the depth argument alone, whatever the environment,
limit or visited set. -/
theorem rrdF_isSome : ∀ (fuel : Nat) (env : Env) (repo fqn : String) (d : Int) (it : Bool)
    (lim : Option Int) (vis : List (String × Nat)) (cd : Nat), d.toNat < fuel →
    (rrdF fuel env repo fqn d it lim vis cd).isSome = true := by
  intro fuel
  induction fuel with
  | zero => intro _ _ _ _ _ _ _ _ h; omega
  | succ n ih =>
    intro env repo fqn d it lim vis cd h
    rw [rrdF_succ]
    by_cases hd : d ≤ 0
    · rw [if_pos hd]
      rfl
    · rw [if_neg hd]
      by_cases hv : (fqn, cd) ∈ vis
      · rw [if_pos hv]
        rfl
      · rw [if_neg hv]
        have hrec : ∀ fq v, (rrdF n env repo fq (d - 1) it lim v (cd + 1)).isSome = true := by
          intro fq v
          apply ih
          omega
        have hfold := foldl_rrdStep_isSome env _ hrec
          (applyLimit lim (find_reverse_dependencies env repo fqn it))
          (some ([], (fqn, cd) :: vis)) rfl
        cases hres : (applyLimit lim (find_reverse_dependencies env repo fqn it)).foldl
            (rrdStep env fun fq v => rrdF n env repo fq (d - 1) it lim v (cd + 1))
            (some ([], (fqn, cd) :: vis)) with
        | none => rw [hres] at hfold; simp at hfold
        | some r =>
          cases r with
          | mk resX visX => rfl

theorem foldl_rrdStep_agree (env : Env)
    (rec1 rec2 : String → List (String × Nat) → Option (List String × List (String × Nat)))
    (hagree : ∀ fq v r, rec1 fq v = some r → rec2 fq v = some r) :
    ∀ (fs : List String) (acc : Option (List String × List (String × Nat)))
      (out : List String × List (String × Nat)),
      fs.foldl (rrdStep env rec1) acc = some out →
      fs.foldl (rrdStep env rec2) acc = some out := by
  intro fs
  induction fs with
  | nil => intro acc out h; exact h
  | cons f fs ih =>
    intro acc out h
    match acc with
    | none => rw [foldl_rrdStep_none] at h; exact absurd h (by simp)
    | some (res, vis) =>
      simp only [List.foldl_cons] at h ⊢
      have hstep : rrdStep env rec2 (some (res, vis)) f = rrdStep env rec1 (some (res, vis)) f ∨
          rrdStep env rec1 (some (res, vis)) f = none := by
        cases hr : env.readFile f with
        | none => left; simp [rrdStep, hr]
        | some c =>
          cases hfq : fqnOf c with
          | none => left; simp [rrdStep, hr, hfq]
          | some fq =>
            cases hrc : rec1 fq vis with
            | none => right; simp [rrdStep, hr, hfq, hrc]
            | some r =>
              left
              simp [rrdStep, hr, hfq, hrc, hagree fq vis r hrc]
      rcases hstep with heq | hnone
      · rw [heq]; exact ih _ out h
      · rw [hnone] at h
        rw [foldl_rrdStep_none] at h
        exact absurd h (by simp)

/-- Adding fuel never changes a successful traversal. -/
theorem rrdF_mono : ∀ (fuel : Nat) (env : Env) (repo fqn : String) (d : Int) (it : Bool)
    (lim : Option Int) (vis : List (String × Nat)) (cd : Nat)
    (r : List String × List (String × Nat)),
    rrdF fuel env repo fqn d it lim vis cd = some r →
    rrdF (fuel + 1) env repo fqn d it lim vis cd = some r := by
  intro fuel
  induction fuel with
  | zero => intro env repo fqn d it lim vis cd r h; exact absurd h (by simp [rrdF])
  | succ n ih =>
    intro env repo fqn d it lim vis cd r h
    rw [rrdF_succ] at h
    rw [rrdF_succ]
    by_cases hd : d ≤ 0
    · rw [if_pos hd] at h ⊢
      exact h
    · rw [if_neg hd] at h ⊢
      by_cases hv : (fqn, cd) ∈ vis
      · rw [if_pos hv] at h ⊢
        exact h
      · rw [if_neg hv] at h ⊢
        cases hres : (applyLimit lim (find_reverse_dependencies env repo fqn it)).foldl
            (rrdStep env fun fq v => rrdF n env repo fq (d - 1) it lim v (cd + 1))
            (some ([], (fqn, cd) :: vis)) with
        | none => rw [hres] at h; exact absurd h (by simp)
        | some out =>
          rw [hres] at h
          have hfold2 := foldl_rrdStep_agree env
            (fun fq v => rrdF n env repo fq (d - 1) it lim v (cd + 1))
            (fun fq v => rrdF (n + 1) env repo fq (d - 1) it lim v (cd + 1))
            (fun fq v rr hrr => ih env repo fq (d - 1) it lim v (cd + 1) rr hrr)
            (applyLimit lim (find_reverse_dependencies env repo fqn it))
            (some ([], (fqn, cd) :: vis)) out hres
          rw [hfold2]
          exact h

/-- Adding any amount of fuel never changes a successful traversal. -/
theorem rrdF_mono_le (env : Env) (repo fqn : String) (d : Int) (it : Bool)
    (lim : Option Int) (vis : List (String × Nat)) (cd : Nat)
    (r : List String × List (String × Nat)) :
    ∀ fuel fuel' : Nat, fuel ≤ fuel' →
      rrdF fuel env repo fqn d it lim vis cd = some r →
      rrdF fuel' env repo fqn d it lim vis cd = some r := by
  intro fuel fuel' hle
  induction fuel' with
  | zero =>
    intro h
    have : fuel = 0 := Nat.le_zero.mp hle
    subst this
    exact h
  | succ m ih =>
    intro h
    rcases Nat.lt_or_ge fuel (m + 1) with hlt | hge
    · exact rrdF_mono m env repo fqn d it lim vis cd r (ih (Nat.lt_succ_iff.mp hlt) h)
    · have : fuel = m + 1 := Nat.le_antisymm hle hge
      subst this
      exact h

/-- C10.  `recursive_reverse_dependencies` terminates on every input: any
fuel strictly above `depth.toNat` suffices (the guard returns at once when
`depth ≤ 0` and every nested call decreases `depth` by one), independently
of the environment, the limit and the visited set, and every such run
computes exactly `recursive_reverse_dependencies`. -/
theorem rrd_terminates_by_depth (env : Env) (repo fqn : String) (d : Int) (it : Bool)
    (lim : Option Int) (vis : List (String × Nat)) (cd : Nat) (fuel : Nat)
    (h : d.toNat < fuel) :
    (rrdF fuel env repo fqn d it lim vis cd).isSome = true ∧
    rrdF fuel env repo fqn d it lim vis cd =
      some (recursive_reverse_dependencies env repo fqn d it lim vis cd) := by
  have h1 := rrdF_isSome (d.toNat + 1) env repo fqn d it lim vis cd (Nat.lt_succ_self _)
  cases hbase : rrdF (d.toNat + 1) env repo fqn d it lim vis cd with
  | none => rw [hbase] at h1; exact absurd h1 (by simp)
  | some r =>
    have h2 := rrdF_mono_le env repo fqn d it lim vis cd r (d.toNat + 1) fuel h hbase
    refine ⟨by rw [h2]; rfl, ?_⟩
    rw [h2]
    unfold recursive_reverse_dependencies
    rw [hbase]
    rfl

/-- An empty repository. -/
def envEmpty : Env :=
  ⟨[], [], fun _ => none, fun _ _ => false, fun _ _ => false⟩

/-- Witness for C10 at a concrete depth, fuel and (empty) repository. -/
theorem rrd_terminates_by_depth_witness :
    (rrdF 3 envEmpty ("repo") ("p.A") 2 false none [] 1).isSome = true ∧
    rrdF 3 envEmpty ("repo") ("p.A") 2 false none [] 1 =
      some (recursive_reverse_dependencies envEmpty ("repo") ("p.A") 2 false none [] 1) :=
  rrd_terminates_by_depth envEmpty ("repo") ("p.A") 2 false none [] 1 3 (by decide)

/-! ## Shape lemmas for one loop iteration -/

theorem rrdStep_read_none (env : Env)
    (rec : String → List (String × Nat) → Option (List String × List (String × Nat)))
    (res : List String) (vis : List (String × Nat)) (f : String)
    (hr : env.readFile f = none) :
    rrdStep env rec (some (res, vis)) f = some (res ++ [f], vis) := by
  simp [rrdStep, hr]

theorem rrdStep_no_fqn (env : Env)
    (rec : String → List (String × Nat) → Option (List String × List (String × Nat)))
    (res : List String) (vis : List (String × Nat)) (f : String) (c : String)
    (hr : env.readFile f = some c) (hf : fqnOf c = none) :
    rrdStep env rec (some (res, vis)) f = some (res ++ [f], vis) := by
  simp [rrdStep, hr, hf]

theorem rrdStep_rec_none (env : Env)
    (rec : String → List (String × Nat) → Option (List String × List (String × Nat)))
    (res : List String) (vis : List (String × Nat)) (f : String) (c f2 : String)
    (hr : env.readFile f = some c) (hf : fqnOf c = some f2)
    (hrc : rec f2 vis = none) :
    rrdStep env rec (some (res, vis)) f = none := by
  simp [rrdStep, hr, hf, hrc]

theorem rrdStep_rec_some (env : Env)
    (rec : String → List (String × Nat) → Option (List String × List (String × Nat)))
    (res : List String) (vis : List (String × Nat)) (f : String) (c f2 : String)
    (sub : List String) (v2 : List (String × Nat))
    (hr : env.readFile f = some c) (hf : fqnOf c = some f2)
    (hrc : rec f2 vis = some (sub, v2)) :
    rrdStep env rec (some (res, vis)) f = some (res ++ f :: sub, v2) := by
  simp [rrdStep, hr, hf, hrc]

/-! ## Claim C9: a fan-out limit of 0 is Python-falsy -/

theorem rrdF_limit_zero : ∀ (fuel : Nat) (env : Env) (repo fqn : String) (d : Int) (it : Bool)
    (vis : List (String × Nat)) (cd : Nat),
    rrdF fuel env repo fqn d it (some 0) vis cd = rrdF fuel env repo fqn d it none vis cd := by
  intro fuel
  induction fuel with
  | zero => intro _ _ _ _ _ _ _; rfl
  | succ n ih =>
    intro env repo fqn d it vis cd
    rw [rrdF_succ, rrdF_succ]
    by_cases hd : d ≤ 0
    · rw [if_pos hd, if_pos hd]
    · rw [if_neg hd, if_neg hd]
      by_cases hv : (fqn, cd) ∈ vis
      · rw [if_pos hv, if_pos hv]
      · rw [if_neg hv, if_neg hv]
        have hlim : applyLimit (some 0) (find_reverse_dependencies env repo fqn it) =
            applyLimit none (find_reverse_dependencies env repo fqn it) := by
          simp [applyLimit]
        have hrec : (fun fq v => rrdF n env repo fq (d - 1) it (some 0) v (cd + 1)) =
            (fun fq v => rrdF n env repo fq (d - 1) it none v (cd + 1)) := by
          funext fq v
          exact ih env repo fq (d - 1) it v (cd + 1)
        rw [hlim, hrec]

/-- The traversal with limit 0 equals the traversal with no limit. -/
theorem rrd_limit_zero_wrapper (env : Env) (repo fqn : String) (d : Int) (it : Bool)
    (vis : List (String × Nat)) (cd : Nat) :
    recursive_reverse_dependencies env repo fqn d it (some 0) vis cd =
      recursive_reverse_dependencies env repo fqn d it none vis cd := by
  unfold recursive_reverse_dependencies
  rw [rrdF_limit_zero]

/-- C9.  Because the source tests the limit for truthiness (`if limit:`),
a limit of 0 is treated exactly like `None`: nothing is truncated, every
matching file is recorded and expanded, in the traversal and therefore also
in the public context assembly. -/
theorem reverse_limit_zero_like_none (env : Env) (repo fqn : String) (d : Int) (it : Bool)
    (vis : List (String × Nat)) (cd : Nat) (target_files : List String) :
    recursive_reverse_dependencies env repo fqn d it (some 0) vis cd =
      recursive_reverse_dependencies env repo fqn d it none vis cd ∧
    prepare_context_multi env repo target_files d it (some 0) =
      prepare_context_multi env repo target_files d it none := by
  constructor
  · exact rrd_limit_zero_wrapper env repo fqn d it vis cd
  · unfold prepare_context_multi
    have hPT : processTarget env repo d it (some 0) = processTarget env repo d it none := by
      funext st target
      unfold processTarget
      simp only [rrd_limit_zero_wrapper]
    rw [hPT]

/-! ## Provenance of traversal results (claims C3, C2, C8) -/

theorem pySlice_subset (l : Int) (fs : List String) : ∀ p, p ∈ pySlice l fs → p ∈ fs := by
  intro p h
  unfold pySlice at h
  split at h
  · exact List.take_subset _ _ h
  · exact List.take_subset _ _ h

theorem applyLimit_subset (lim : Option Int) (fs : List String) :
    ∀ p, p ∈ applyLimit lim fs → p ∈ fs := by
  intro p h
  cases lim with
  | none => exact h
  | some l =>
    simp only [applyLimit] at h
    split at h
    · exact pySlice_subset l fs p h
    · exact h

theorem foldl_rrdStep_provenance (env : Env)
    (rec : String → List (String × Nat) → Option (List String × List (String × Nat))) :
    ∀ (fs : List String) (res0 : List String) (vis0 : List (String × Nat))
      (res : List String) (v : List (String × Nat)),
      fs.foldl (rrdStep env rec) (some (res0, vis0)) = some (res, v) →
      ∀ p ∈ res, p ∈ res0 ∨ p ∈ fs ∨
        ∃ g ∈ fs, ∃ c, env.readFile g = some c ∧ ∃ f2, fqnOf c = some f2 ∧
          ∃ v1 sub v2, rec f2 v1 = some (sub, v2) ∧ p ∈ sub := by
  intro fs
  induction fs with
  | nil =>
    intro res0 vis0 res v h p hp
    simp only [List.foldl_nil, Option.some.injEq, Prod.mk.injEq] at h
    exact Or.inl (h.1 ▸ hp)
  | cons f fs ih =>
    intro res0 vis0 res v h p hp
    simp only [List.foldl_cons] at h
    cases hr : env.readFile f with
    | none =>
      rw [rrdStep_read_none env rec res0 vis0 f hr] at h
      rcases ih _ _ _ _ h p hp with h1 | h1 | ⟨g, hg, rest⟩
      · rcases List.mem_append.mp h1 with h2 | h2
        · exact Or.inl h2
        · simp only [List.mem_singleton] at h2
          subst h2
          exact Or.inr (Or.inl (List.mem_cons_self _ _))
      · exact Or.inr (Or.inl (List.mem_cons_of_mem _ h1))
      · exact Or.inr (Or.inr ⟨g, List.mem_cons_of_mem _ hg, rest⟩)
    | some c =>
      cases hfq : fqnOf c with
      | none =>
        rw [rrdStep_no_fqn env rec res0 vis0 f c hr hfq] at h
        rcases ih _ _ _ _ h p hp with h1 | h1 | ⟨g, hg, rest⟩
        · rcases List.mem_append.mp h1 with h2 | h2
          · exact Or.inl h2
          · simp only [List.mem_singleton] at h2
            subst h2
            exact Or.inr (Or.inl (List.mem_cons_self _ _))
        · exact Or.inr (Or.inl (List.mem_cons_of_mem _ h1))
        · exact Or.inr (Or.inr ⟨g, List.mem_cons_of_mem _ hg, rest⟩)
      | some f2 =>
        cases hrc : rec f2 vis0 with
        | none =>
          rw [rrdStep_rec_none env rec res0 vis0 f c f2 hr hfq hrc] at h
          rw [foldl_rrdStep_none] at h
          exact absurd h (by simp)
        | some r =>
          rcases r with ⟨sub, v2⟩
          rw [rrdStep_rec_some env rec res0 vis0 f c f2 sub v2 hr hfq hrc] at h
          rcases ih _ _ _ _ h p hp with h1 | h1 | ⟨g, hg, rest⟩
          · rcases List.mem_append.mp h1 with h2 | h2
            · exact Or.inl h2
            · rcases List.mem_cons.mp h2 with h3 | h3
              · subst h3
                exact Or.inr (Or.inl (List.mem_cons_self _ _))
              · exact Or.inr (Or.inr
                  ⟨f, List.mem_cons_self _ _, c, hr, f2, hfq, vis0, sub, v2, hrc, h3⟩)
          · exact Or.inr (Or.inl (List.mem_cons_of_mem _ h1))
          · exact Or.inr (Or.inr ⟨g, List.mem_cons_of_mem _ hg, rest⟩)

/-- Every result of the fuelled traversal is reachable from the target by a
reverse-dependency chain of at most `depth.toNat` hops. -/
theorem rrdF_chain : ∀ (fuel : Nat) (env : Env) (repo fqn : String) (d : Int) (it : Bool)
    (lim : Option Int) (vis : List (String × Nat)) (cd : Nat)
    (res : List String) (v : List (String × Nat)),
    rrdF fuel env repo fqn d it lim vis cd = some (res, v) →
    ∀ p ∈ res, chainReach env repo it d.toNat fqn p := by
  intro fuel
  induction fuel with
  | zero =>
    intro env repo fqn d it lim vis cd res v h
    exact absurd h (by simp [rrdF])
  | succ n ih =>
    intro env repo fqn d it lim vis cd res v h p hp
    rw [rrdF_succ] at h
    by_cases hd : d ≤ 0
    · rw [if_pos hd] at h
      simp only [Option.some.injEq, Prod.mk.injEq] at h
      rw [← h.1] at hp
      exact absurd hp (List.not_mem_nil p)
    · rw [if_neg hd] at h
      by_cases hv : (fqn, cd) ∈ vis
      · rw [if_pos hv] at h
        simp only [Option.some.injEq, Prod.mk.injEq] at h
        rw [← h.1] at hp
        exact absurd hp (List.not_mem_nil p)
      · rw [if_neg hv] at h
        cases hres : (applyLimit lim (find_reverse_dependencies env repo fqn it)).foldl
            (rrdStep env fun fq v => rrdF n env repo fq (d - 1) it lim v (cd + 1))
            (some ([], (fqn, cd) :: vis)) with
        | none => rw [hres] at h; exact absurd h (by simp)
        | some out =>
          rcases out with ⟨res0, v0⟩
          rw [hres] at h
          simp only [Option.some.injEq, Prod.mk.injEq] at h
          rw [← h.1] at hp
          have hp0 : p ∈ res0 := List.mem_dedup.mp hp
          have hprov := foldl_rrdStep_provenance env _ _ _ _ _ _ hres p hp0
          obtain ⟨m, hm⟩ : ∃ m, d.toNat = m + 1 := ⟨d.toNat - 1, by omega⟩
          rcases hprov with h1 | h1 | ⟨g, hg, c, hcr, f2, hf2, v1, sub, v2, hrc, hps⟩
          · exact absurd h1 (List.not_mem_nil p)
          · have hfind : p ∈ find_reverse_dependencies env repo fqn it :=
              applyLimit_subset _ _ p h1
            rw [hm]
            exact Or.inl hfind
          · have hgfind : g ∈ find_reverse_dependencies env repo fqn it :=
              applyLimit_subset _ _ g hg
            have hchain := ih env repo f2 (d - 1) it lim v1 (cd + 1) sub v2 hrc p hps
            have hdm : (d - 1).toNat = m := by omega
            rw [hdm] at hchain
            rw [hm]
            exact Or.inr ⟨g, hgfind, c, hcr, f2, hf2, hchain⟩

/-- C3.  A traversal at depth ≤ 0 returns the empty list, and every file in a
traversal's result is reachable from the target by a reverse-dependency
chain of at most `depth.toNat` hops — no longer chain's endpoint can appear. -/
theorem rrd_depth_bound (env : Env) (repo fqn : String) (d : Int) (it : Bool)
    (lim : Option Int) :
    (d ≤ 0 → ∀ (vis : List (String × Nat)) (cd : Nat),
      recursive_reverse_dependencies env repo fqn d it lim vis cd = ([], vis)) ∧
    (∀ p ∈ (recursive_reverse_dependencies env repo fqn d it lim [] 1).1,
      chainReach env repo it d.toNat fqn p) := by
  constructor
  · intro hd vis cd
    unfold recursive_reverse_dependencies
    have h0 : d.toNat = 0 := Int.toNat_of_nonpos hd
    rw [h0, rrdF_succ, if_pos hd]
    rfl
  · intro p hp
    unfold recursive_reverse_dependencies at hp
    cases hres : rrdF (d.toNat + 1) env repo fqn d it lim [] 1 with
    | none =>
      rw [hres] at hp
      exact absurd hp (List.not_mem_nil p)
    | some r =>
      rcases r with ⟨res, v⟩
      rw [hres] at hp
      exact rrdF_chain (d.toNat + 1) env repo fqn d it lim [] 1 res v hres p hp

/-- A synthetic chain: `p.A` is referenced by `B.java` (class `p.B`), which
is referenced by `C.java` (class `p.C`), which is referenced by `D.java`.
The abstract combined-pattern matcher looks for a `//uses:<fqn>` marker. -/
def envChain : Env :=
  ⟨[],
   [(("repo"), ("B.java")), (("repo"), ("C.java")), (("repo"), ("D.java"))],
   fun p =>
     if p = ("repo/B.java") then some ("package p;\nclass B \x7b\x7d\n//uses:p.A")
     else if p = ("repo/C.java") then some ("package p;\nclass C \x7b\x7d\n//uses:p.B")
     else if p = ("repo/D.java") then some ("package p;\nclass D \x7b\x7d\n//uses:p.C")
     else none,
   fun fqn text => strHasSub text (("//uses:") ++ fqn),
   fun _ _ => false⟩

/-- Witness for C3: in the chain `A ← B ← C ← D`, a depth-2 traversal from
`p.A` reaches `C.java` by a 2-hop chain, never contains `D.java`, and a
depth-0 traversal is empty. -/
theorem rrd_depth_bound_witness :
    chainReach envChain ("repo") false 2 ("p.A") ("repo/C.java") ∧
    (("repo/D.java") ∉
      (recursive_reverse_dependencies envChain ("repo") ("p.A") 2 false none [] 1).1) ∧
    recursive_reverse_dependencies envChain ("repo") ("p.A") 0 false none [] 1 = ([], []) := by
  refine ⟨?_, by decide, ?_⟩
  · exact (rrd_depth_bound envChain ("repo") ("p.A") 2 false none).2 ("repo/C.java") (by decide)
  · exact (rrd_depth_bound envChain ("repo") ("p.A") 0 false none).1 (by decide) [] 1

/-! ## Claim C1: the visited set keys on (FQN, depth) pairs -/

theorem foldl_rrdStep_nodup (env : Env)
    (rec : String → List (String × Nat) → Option (List String × List (String × Nat)))
    (hrec : ∀ fq v r w, v.Nodup → rec fq v = some (r, w) → w.Nodup) :
    ∀ (fs : List String) (res0 : List String) (vis0 : List (String × Nat))
      (res : List String) (v : List (String × Nat)),
      vis0.Nodup → fs.foldl (rrdStep env rec) (some (res0, vis0)) = some (res, v) →
      v.Nodup := by
  intro fs
  induction fs with
  | nil =>
    intro res0 vis0 res v hn h
    simp only [List.foldl_nil, Option.some.injEq, Prod.mk.injEq] at h
    exact h.2 ▸ hn
  | cons f fs ih =>
    intro res0 vis0 res v hn h
    simp only [List.foldl_cons] at h
    cases hr : env.readFile f with
    | none =>
      rw [rrdStep_read_none env rec res0 vis0 f hr] at h
      exact ih _ _ _ _ hn h
    | some c =>
      cases hfq : fqnOf c with
      | none =>
        rw [rrdStep_no_fqn env rec res0 vis0 f c hr hfq] at h
        exact ih _ _ _ _ hn h
      | some f2 =>
        cases hrc : rec f2 vis0 with
        | none =>
          rw [rrdStep_rec_none env rec res0 vis0 f c f2 hr hfq hrc] at h
          rw [foldl_rrdStep_none] at h
          exact absurd h (by simp)
        | some r =>
          rcases r with ⟨sub, v2⟩
          rw [rrdStep_rec_some env rec res0 vis0 f c f2 sub v2 hr hfq hrc] at h
          exact ih _ _ _ _ (hrec f2 vis0 sub v2 hn hrc) h

/-- The traversal never records the same (FQN, depth) pair twice. -/
theorem rrdF_nodup : ∀ (fuel : Nat) (env : Env) (repo fqn : String) (d : Int) (it : Bool)
    (lim : Option Int) (vis : List (String × Nat)) (cd : Nat)
    (res : List String) (v : List (String × Nat)),
    vis.Nodup → rrdF fuel env repo fqn d it lim vis cd = some (res, v) → v.Nodup := by
  intro fuel
  induction fuel with
  | zero =>
    intro env repo fqn d it lim vis cd res v _ h
    exact absurd h (by simp [rrdF])
  | succ n ih =>
    intro env repo fqn d it lim vis cd res v hn h
    rw [rrdF_succ] at h
    by_cases hd : d ≤ 0
    · rw [if_pos hd] at h
      simp only [Option.some.injEq, Prod.mk.injEq] at h
      exact h.2 ▸ hn
    · rw [if_neg hd] at h
      by_cases hv : (fqn, cd) ∈ vis
      · rw [if_pos hv] at h
        simp only [Option.some.injEq, Prod.mk.injEq] at h
        exact h.2 ▸ hn
      · rw [if_neg hv] at h
        cases hres : (applyLimit lim (find_reverse_dependencies env repo fqn it)).foldl
            (rrdStep env fun fq v => rrdF n env repo fq (d - 1) it lim v (cd + 1))
            (some ([], (fqn, cd) :: vis)) with
        | none => rw [hres] at h; exact absurd h (by simp)
        | some out =>
          rcases out with ⟨res0, v0⟩
          rw [hres] at h
          simp only [Option.some.injEq, Prod.mk.injEq] at h
          have hn1 : ((fqn, cd) :: vis).Nodup := List.nodup_cons.mpr ⟨hv, hn⟩
          have := foldl_rrdStep_nodup env _
            (fun fq v r w hnv hw => ih env repo fq (d - 1) it lim v (cd + 1) r w hnv hw)
            _ _ _ _ _ hn1 hres
          exact h.2 ▸ this

/-- C1 (amended).  A target FQN visited at a given traversal depth is never
re-expanded AT THAT SAME DEPTH: the entry guard returns immediately when the
(FQN, current-depth) pair is in the visited set, and consequently no pair is
ever recorded twice in one traversal.  (Re-expansion at a different depth is
possible; see the counterexample.) -/
theorem rrd_visited_same_depth_guard (env : Env) (repo fqn : String) (d : Int) (it : Bool)
    (lim : Option Int) (vis : List (String × Nat)) (cd : Nat) :
    ((fqn, cd) ∈ vis → recursive_reverse_dependencies env repo fqn d it lim vis cd = ([], vis)) ∧
    (vis.Nodup → ((recursive_reverse_dependencies env repo fqn d it lim vis cd).2).Nodup) := by
  constructor
  · intro hv
    unfold recursive_reverse_dependencies
    rw [rrdF_succ]
    by_cases hd : d ≤ 0
    · rw [if_pos hd]
      rfl
    · rw [if_neg hd, if_pos hv]
      rfl
  · intro hn
    unfold recursive_reverse_dependencies
    cases hres : rrdF (d.toNat + 1) env repo fqn d it lim vis cd with
    | none => exact hn
    | some r =>
      rcases r with ⟨res, v⟩
      exact rrdF_nodup (d.toNat + 1) env repo fqn d it lim vis cd res v hn hres

/-- A two-node reference cycle: `p.T` is referenced by `B.java` (class `p.B`)
and `p.B` is referenced by `T.java` (class `p.T`). -/
def envC1 : Env :=
  ⟨[],
   [(("repo"), ("B.java")), (("repo"), ("T.java"))],
   fun p =>
     if p = ("repo/B.java") then some ("package p;\nclass B \x7b\x7d\n//uses:p.T")
     else if p = ("repo/T.java") then some ("package p;\nclass T \x7b\x7d\n//uses:p.B")
     else none,
   fun fqn text => strHasSub text (("//uses:") ++ fqn),
   fun _ _ => false⟩

/-- C1 counterexample.  In the cyclic repository `envC1`, one outermost
depth-3 traversal of `p.T` (fresh visited set) expands `p.T` at depth 1 and
then expands it AGAIN when the cycle returns to it at depth 3: both
`("p.T", 1)` and `("p.T", 3)` end up recorded in the visited set, because
the guard keys on (FQN, current-depth) pairs, not on FQNs. -/
theorem rrd_reexpands_at_deeper_depth :
    (("p.T"), 1) ∈ (recursive_reverse_dependencies envC1 ("repo") ("p.T") 3 false none [] 1).2 ∧
    (("p.T"), 3) ∈ (recursive_reverse_dependencies envC1 ("repo") ("p.T") 3 false none [] 1).2 := by
  refine ⟨by decide, by decide⟩

/-- Witness for C1 (amended): the same-depth guard fires on a pre-visited
pair, and a concrete traversal's final visited set is duplicate-free. -/
theorem rrd_visited_same_depth_guard_witness :
    recursive_reverse_dependencies envC1 ("repo") ("p.T") 3 false none [(("p.T"), 1)] 1 =
      ([], [(("p.T"), 1)]) ∧
    ((recursive_reverse_dependencies envC1 ("repo") ("p.T") 3 false none [] 1).2).Nodup := by
  constructor
  · exact (rrd_visited_same_depth_guard envC1 ("repo") ("p.T") 3 false none
      [(("p.T"), 1)] 1).1 (by decide)
  · exact (rrd_visited_same_depth_guard envC1 ("repo") ("p.T") 3 false none [] 1).2 (by decide)

/-! ## Claim C2: the per-level limit truncates before recording -/

theorem foldl_rrdStep_res_prefix (env : Env)
    (rec : String → List (String × Nat) → Option (List String × List (String × Nat))) :
    ∀ (fs : List String) (res0 : List String) (vis0 : List (String × Nat))
      (res : List String) (v : List (String × Nat)),
      fs.foldl (rrdStep env rec) (some (res0, vis0)) = some (res, v) →
      ∃ t, res = res0 ++ t := by
  intro fs
  induction fs with
  | nil =>
    intro res0 vis0 res v h
    simp only [List.foldl_nil, Option.some.injEq, Prod.mk.injEq] at h
    exact ⟨[], by rw [← h.1]; simp⟩
  | cons f fs ih =>
    intro res0 vis0 res v h
    simp only [List.foldl_cons] at h
    cases hr : env.readFile f with
    | none =>
      rw [rrdStep_read_none env rec res0 vis0 f hr] at h
      obtain ⟨t, ht⟩ := ih _ _ _ _ h
      exact ⟨[f] ++ t, by rw [ht]; simp⟩
    | some c =>
      cases hfq : fqnOf c with
      | none =>
        rw [rrdStep_no_fqn env rec res0 vis0 f c hr hfq] at h
        obtain ⟨t, ht⟩ := ih _ _ _ _ h
        exact ⟨[f] ++ t, by rw [ht]; simp⟩
      | some f2 =>
        cases hrc : rec f2 vis0 with
        | none =>
          rw [rrdStep_rec_none env rec res0 vis0 f c f2 hr hfq hrc] at h
          rw [foldl_rrdStep_none] at h
          exact absurd h (by simp)
        | some r =>
          rcases r with ⟨sub, v2⟩
          rw [rrdStep_rec_some env rec res0 vis0 f c f2 sub v2 hr hfq hrc] at h
          obtain ⟨t, ht⟩ := ih _ _ _ _ h
          exact ⟨f :: sub ++ t, by rw [ht]; simp⟩

theorem foldl_rrdStep_files_mem (env : Env)
    (rec : String → List (String × Nat) → Option (List String × List (String × Nat))) :
    ∀ (fs : List String) (res0 : List String) (vis0 : List (String × Nat))
      (res : List String) (v : List (String × Nat)),
      fs.foldl (rrdStep env rec) (some (res0, vis0)) = some (res, v) →
      ∀ f ∈ fs, f ∈ res := by
  intro fs
  induction fs with
  | nil =>
    intro res0 vis0 res v _ f hf
    exact absurd hf (List.not_mem_nil f)
  | cons f fs ih =>
    intro res0 vis0 res v h g hg
    simp only [List.foldl_cons] at h
    cases hr : env.readFile f with
    | none =>
      rw [rrdStep_read_none env rec res0 vis0 f hr] at h
      rcases List.mem_cons.mp hg with rfl | hg2
      · obtain ⟨t, ht⟩ := foldl_rrdStep_res_prefix env rec fs _ _ _ _ h
        rw [ht]
        simp
      · exact ih _ _ _ _ h g hg2
    | some c =>
      cases hfq : fqnOf c with
      | none =>
        rw [rrdStep_no_fqn env rec res0 vis0 f c hr hfq] at h
        rcases List.mem_cons.mp hg with rfl | hg2
        · obtain ⟨t, ht⟩ := foldl_rrdStep_res_prefix env rec fs _ _ _ _ h
          rw [ht]
          simp
        · exact ih _ _ _ _ h g hg2
      | some f2 =>
        cases hrc : rec f2 vis0 with
        | none =>
          rw [rrdStep_rec_none env rec res0 vis0 f c f2 hr hfq hrc] at h
          rw [foldl_rrdStep_none] at h
          exact absurd h (by simp)
        | some r =>
          rcases r with ⟨sub, v2⟩
          rw [rrdStep_rec_some env rec res0 vis0 f c f2 sub v2 hr hfq hrc] at h
          rcases List.mem_cons.mp hg with rfl | hg2
          · obtain ⟨t, ht⟩ := foldl_rrdStep_res_prefix env rec fs _ _ _ _ h
            rw [ht]
            simp
          · exact ih _ _ _ _ h g hg2

/-- C2 (amended).  With a truthy limit `l`, a level of the traversal
processes exactly the first-`l` slice of the candidate list: every sliced-in
candidate is recorded in the result, and everything in the result is either
a sliced-in candidate or reachable by expansion of one; candidates beyond
the limit are neither recorded at that level nor expanded. -/
theorem rrd_limit_truncates_before_recording (env : Env) (repo fqn : String) (d : Int)
    (it : Bool) (l : Int) (hl : l ≠ 0) (hd : 0 < d) :
    (∀ p ∈ pySlice l (find_reverse_dependencies env repo fqn it),
       p ∈ (recursive_reverse_dependencies env repo fqn d it (some l) [] 1).1) ∧
    (∀ p ∈ (recursive_reverse_dependencies env repo fqn d it (some l) [] 1).1,
       p ∈ pySlice l (find_reverse_dependencies env repo fqn it) ∨
       ∃ g ∈ pySlice l (find_reverse_dependencies env repo fqn it), ∃ c,
         env.readFile g = some c ∧ ∃ f2, fqnOf c = some f2 ∧
           chainReach env repo it (d - 1).toNat f2 p) := by
  have hne : ¬ d ≤ 0 := by omega
  have hlim : applyLimit (some l) (find_reverse_dependencies env repo fqn it) =
      pySlice l (find_reverse_dependencies env repo fqn it) := by
    simp [applyLimit, hl]
  have hsome := rrdF_isSome (d.toNat + 1) env repo fqn d it (some l) [] 1 (Nat.lt_succ_self _)
  rw [rrdF_succ, if_neg hne, if_neg (List.not_mem_nil ((fqn, 1))), hlim] at hsome
  cases hres : (pySlice l (find_reverse_dependencies env repo fqn it)).foldl
      (rrdStep env fun fq v => rrdF d.toNat env repo fq (d - 1) it (some l) v (1 + 1))
      (some ([], [(fqn, 1)])) with
  | none => rw [hres] at hsome; simp at hsome
  | some out =>
    rcases out with ⟨res0, v0⟩
    have hwrap : (recursive_reverse_dependencies env repo fqn d it (some l) [] 1).1 =
        pySetList res0 := by
      unfold recursive_reverse_dependencies
      rw [rrdF_succ, if_neg hne, if_neg (List.not_mem_nil ((fqn, 1))), hlim, hres]
      rfl
    constructor
    · intro p hp
      rw [hwrap]
      exact List.mem_dedup.mpr (foldl_rrdStep_files_mem env _ _ _ _ _ _ hres p hp)
    · intro p hp
      rw [hwrap] at hp
      have hpres : p ∈ res0 := List.mem_dedup.mp hp
      rcases foldl_rrdStep_provenance env _ _ _ _ _ _ hres p hpres with
        h1 | h1 | ⟨g, hg, c, hcr, f2, hf2, v1, sub, v2, hrc, hps⟩
      · exact absurd h1 (List.not_mem_nil p)
      · exact Or.inl h1
      · exact Or.inr ⟨g, hg, c, hcr, f2, hf2,
          rrdF_chain d.toNat env repo f2 (d - 1) it (some l) v1 (1 + 1) sub v2 hrc p hps⟩

/-- Three files that all reference `p.A`; none references anything else. -/
def envC2 : Env :=
  ⟨[],
   [(("repo"), ("F1.java")), (("repo"), ("F2.java")), (("repo"), ("F3.java"))],
   fun p =>
     if p = ("repo/F1.java") then some ("package p;\nclass F1 \x7b\x7d\n//uses:p.A")
     else if p = ("repo/F2.java") then some ("package p;\nclass F2 \x7b\x7d\n//uses:p.A")
     else if p = ("repo/F3.java") then some ("package p;\nclass F3 \x7b\x7d\n//uses:p.A")
     else none,
   fun fqn text => strHasSub text (("//uses:") ++ fqn),
   fun _ _ => false⟩

/-- C2 counterexample.  Three files match `p.A` at depth 1, but with
`limit = 1` the depth-2 traversal returns ONLY the single sliced-in file:
the two candidates beyond the limit are dropped entirely — they are not
"recorded as depth-1 findings", contrary to the claim. -/
theorem rrd_limit_drops_beyond_limit :
    find_reverse_dependencies envC2 ("repo") ("p.A") false =
      [("repo/F1.java"), ("repo/F2.java"), ("repo/F3.java")] ∧
    (recursive_reverse_dependencies envC2 ("repo") ("p.A") 2 false (some 1) [] 1).1 =
      [("repo/F1.java")] ∧
    (("repo/F2.java") ∉
      (recursive_reverse_dependencies envC2 ("repo") ("p.A") 2 false (some 1) [] 1).1) ∧
    (("repo/F3.java") ∉
      (recursive_reverse_dependencies envC2 ("repo") ("p.A") 2 false (some 1) [] 1).1) := by
  refine ⟨by decide, by decide, by decide, by decide⟩

/-- Witness for C2 (amended) on the three-file repository with limit 1. -/
theorem rrd_limit_truncates_before_recording_witness :
    (("repo/F1.java") ∈
      (recursive_reverse_dependencies envC2 ("repo") ("p.A") 2 false (some 1) [] 1).1) ∧
    ((("repo/F1.java") ∈ pySlice 1 (find_reverse_dependencies envC2 ("repo") ("p.A") false)) ∨
     ∃ g ∈ pySlice 1 (find_reverse_dependencies envC2 ("repo") ("p.A") false), ∃ c,
       envC2.readFile g = some c ∧ ∃ f2, fqnOf c = some f2 ∧
         chainReach envC2 ("repo") false ((2 : Int) - 1).toNat f2 ("repo/F1.java")) := by
  constructor
  · exact (rrd_limit_truncates_before_recording envC2 ("repo") ("p.A") 2 false 1
      (by decide) (by decide)).1 ("repo/F1.java") (by decide)
  · exact (rrd_limit_truncates_before_recording envC2 ("repo") ("p.A") 2 false 1
      (by decide) (by decide)).2 ("repo/F1.java") (by decide)

/-! ## Claim C8: read failures are silently skipped -/

theorem findFiles_env_irrel (d1 d2 : List String) (f1 f2 : List (String × String))
    (r : String → Option String) (cm im : String → String → Bool)
    (pkg base fqn : String) (it : Bool) :
    ∀ ws, findFiles ⟨d1, f1, r, cm, im⟩ pkg base fqn it ws =
      findFiles ⟨d2, f2, r, cm, im⟩ pkg base fqn it ws := by
  intro ws
  induction ws with
  | nil => rfl
  | cons w ws ih =>
    simp only [findFiles]
    rw [ih]

theorem findFiles_append (env : Env) (pkg base fqn : String) (it : Bool) :
    ∀ xs ys, findFiles env pkg base fqn it (xs ++ ys) =
      findFiles env pkg base fqn it xs ++ findFiles env pkg base fqn it ys := by
  intro xs ys
  induction xs with
  | nil => rfl
  | cons x xs ih =>
    simp only [List.cons_append, findFiles, List.append_eq]
    rw [ih]
    split
    · rfl
    · split
      · rfl
      · cases env.readFile (x.1 ++ ("/") ++ x.2) with
        | none => rfl
        | some t =>
          split
          · rfl
          · split
            · rfl
            · split
              · rfl
              · rfl

theorem findFiles_cons_unreadable (env : Env) (pkg base fqn : String) (it : Bool)
    (e : String × String) (ws : List (String × String))
    (hread : env.readFile (e.1 ++ ("/") ++ e.2) = none) :
    findFiles env pkg base fqn it (e :: ws) = findFiles env pkg base fqn it ws := by
  simp only [findFiles]
  split
  · rfl
  · split
    · rfl
    · rw [hread]

/-- Dropping an unreadable file from the walk does not change the outcome of
reverse-dependency discovery: the file contributes nothing, and the
remaining (sibling) files are processed exactly as before. -/
theorem find_skips_unreadable (dirs : List String) (l₁ l₂ : List (String × String))
    (e : String × String) (readF : String → Option String) (cm im : String → String → Bool)
    (repo fqn : String) (it : Bool)
    (hread : readF (e.1 ++ ("/") ++ e.2) = none) :
    find_reverse_dependencies ⟨dirs, l₁ ++ e :: l₂, readF, cm, im⟩ repo fqn it =
      find_reverse_dependencies ⟨dirs, l₁ ++ l₂, readF, cm, im⟩ repo fqn it := by
  unfold find_reverse_dependencies
  apply congrArg
  have hwalk1 : walkPairs ⟨dirs, l₁ ++ e :: l₂, readF, cm, im⟩ repo =
      (l₁.filter (fun rf => rf.1 == repo || strStartsWith rf.1 (repo ++ ("/")))) ++
        List.filter (fun rf => rf.1 == repo || strStartsWith rf.1 (repo ++ ("/"))) (e :: l₂) := by
    simp [walkPairs]
  have hwalk2 : walkPairs ⟨dirs, l₁ ++ l₂, readF, cm, im⟩ repo =
      (l₁.filter (fun rf => rf.1 == repo || strStartsWith rf.1 (repo ++ ("/")))) ++
        l₂.filter (fun rf => rf.1 == repo || strStartsWith rf.1 (repo ++ ("/"))) := by
    simp [walkPairs]
  rw [hwalk1, hwalk2]
  rw [findFiles_env_irrel dirs dirs (l₁ ++ e :: l₂) (l₁ ++ l₂) readF cm im]
  rw [List.filter_cons]
  split
  · rw [findFiles_append, findFiles_append]
    apply congrArg
    exact findFiles_cons_unreadable _ _ _ _ _ _ _ hread
  · rfl

theorem findFiles_readable (env : Env) (pkg base fqn : String) (it : Bool) :
    ∀ ws p, p ∈ findFiles env pkg base fqn it ws → (env.readFile p).isSome = true := by
  intro ws
  induction ws with
  | nil =>
    intro p hp
    exact absurd hp (List.not_mem_nil p)
  | cons w ws ih =>
    intro p hp
    simp only [findFiles] at hp
    split at hp
    · exact ih p hp
    · split at hp
      · exact ih p hp
      · split at hp
        next hr => exact ih p hp
        next t hr =>
          split at hp
          · rcases List.mem_cons.mp hp with rfl | hp2
            · rw [hr]
              rfl
            · exact ih p hp2
          · split at hp
            · rcases List.mem_cons.mp hp with rfl | hp2
              · rw [hr]
                rfl
              · exact ih p hp2
            · exact ih p hp

/-- Everything discovered by `find_reverse_dependencies` was readable. -/
theorem find_readable (env : Env) (repo fqn : String) (it : Bool) (p : String)
    (hp : p ∈ find_reverse_dependencies env repo fqn it) :
    (env.readFile p).isSome = true := by
  unfold find_reverse_dependencies at hp
  exact findFiles_readable env _ _ _ it _ p (List.mem_dedup.mp hp)

theorem chainReach_mem_find (env : Env) (repo : String) (it : Bool) :
    ∀ (k : Nat) (fqn p : String), chainReach env repo it k fqn p →
      ∃ fq, p ∈ find_reverse_dependencies env repo fq it := by
  intro k
  induction k with
  | zero =>
    intro fqn p h
    exact absurd h (by simp [chainReach])
  | succ k ih =>
    intro fqn p h
    simp only [chainReach] at h
    rcases h with h1 | ⟨g, _, c, _, f2, _, hch⟩
    · exact ⟨fqn, h1⟩
    · exact ih f2 p hch

/-- C8.  A file whose read raises contributes nothing: removing an
unreadable file from the walk leaves reverse-dependency discovery unchanged
(siblings are still processed), and no unreadable path can ever appear in
the result of a recursive traversal. -/
theorem read_failures_skipped (dirs : List String) (l₁ l₂ : List (String × String))
    (e : String × String) (readF : String → Option String) (cm im : String → String → Bool)
    (repo fqn : String) (it : Bool) (env : Env) (d : Int) (lim : Option Int) (p : String) :
    (readF (e.1 ++ ("/") ++ e.2) = none →
      find_reverse_dependencies ⟨dirs, l₁ ++ e :: l₂, readF, cm, im⟩ repo fqn it =
        find_reverse_dependencies ⟨dirs, l₁ ++ l₂, readF, cm, im⟩ repo fqn it) ∧
    (env.readFile p = none →
      p ∉ (recursive_reverse_dependencies env repo fqn d it lim [] 1).1) := by
  constructor
  · intro hread
    exact find_skips_unreadable dirs l₁ l₂ e readF cm im repo fqn it hread
  · intro hread hp
    unfold recursive_reverse_dependencies at hp
    cases hres : rrdF (d.toNat + 1) env repo fqn d it lim [] 1 with
    | none =>
      rw [hres] at hp
      exact absurd hp (List.not_mem_nil p)
    | some r =>
      rcases r with ⟨res, v⟩
      rw [hres] at hp
      have hchain := rrdF_chain (d.toNat + 1) env repo fqn d it lim [] 1 res v hres p hp
      obtain ⟨fq, hfind⟩ := chainReach_mem_find env repo it d.toNat fqn p hchain
      have hsome := find_readable env repo fq it p hfind
      rw [hread] at hsome
      exact absurd hsome (by simp)

/-- The read function of the witness repository: `Bad.java` is unreadable. -/
def readFunR : String → Option String :=
  fun p => if p = ("repo/Good.java") then some ("package p;\nclass G \x7b\x7d\n//uses:p.X")
           else none

/-- The marker-based stand-in for the combined pattern battery. -/
def cmMarker : String → String → Bool :=
  fun fqn text => strHasSub text (("//uses:") ++ fqn)

/-- The always-false stand-in for the same-package inheritance pattern. -/
def imFalse : String → String → Bool :=
  fun _ _ => false

/-- A repository with one readable and one unreadable file. -/
def envRead : Env :=
  ⟨[], [(("repo"), ("Good.java")), (("repo"), ("Bad.java"))], readFunR, cmMarker, imFalse⟩

/-- The same repository with the unreadable file removed from the walk. -/
def envReadPruned : Env :=
  ⟨[], [(("repo"), ("Good.java"))], readFunR, cmMarker, imFalse⟩

/-- Witness for C8 on the concrete two-file repository. -/
theorem read_failures_skipped_witness :
    find_reverse_dependencies envRead ("repo") ("p.X") false =
      find_reverse_dependencies envReadPruned ("repo") ("p.X") false ∧
    (("repo/Bad.java") ∉
      (recursive_reverse_dependencies envRead ("repo") ("p.X") 2 false none [] 1).1) := by
  constructor
  · exact (read_failures_skipped [] [(("repo"), ("Good.java"))] []
      ((("repo"), ("Bad.java"))) readFunR cmMarker imFalse ("repo") ("p.X") false
      envRead 2 none ("repo/Bad.java")).1 (by decide)
  · exact (read_failures_skipped [] [] [] ((("")), (("")))  readFunR cmMarker imFalse
      ("repo") ("p.X") false envRead 2 none ("repo/Bad.java")).2 (by decide)

/-! ## Claim C4: global deduplication by path in the context assembler -/

/-- The dedup invariant: emitted chunk paths are pairwise distinct and all
already recorded in the seen-set. -/
def SeenInv (seen : List String) (chunks : List Chunk) : Prop :=
  (chunks.map Chunk.path).Nodup ∧ ∀ c ∈ chunks, c.path ∈ seen

/-- The invariant lifted to the optional assembler state (vacuous on the
aborted state). -/
def StInv (st : Option (List String × List Chunk)) : Prop :=
  ∀ s c, st = some (s, c) → SeenInv s c

theorem stinv_none : StInv none := by
  intro s c h
  exact absurd h (by simp)

theorem emitOne_inv (env : Env) (header : String) (xf : String → String)
    (seen : List String) (chunks : List Chunk) (fp : String)
    (seen' : List String) (chunks' : List Chunk)
    (hinv : SeenInv seen chunks)
    (h : emitOne env header xf (some (seen, chunks)) fp = some (seen', chunks')) :
    SeenInv seen' chunks' := by
  simp only [emitOne] at h
  by_cases hfp : fp ∈ seen
  · rw [if_pos hfp] at h
    simp only [Option.some.injEq, Prod.mk.injEq] at h
    rw [← h.1, ← h.2]
    exact hinv
  · rw [if_neg hfp] at h
    cases hr : env.readFile fp with
    | none =>
      rw [hr] at h
      exact absurd h (by simp)
    | some txt =>
      rw [hr] at h
      simp only [Option.some.injEq, Prod.mk.injEq] at h
      rw [← h.1, ← h.2]
      constructor
      · rw [List.map_append]
        refine List.Nodup.append hinv.1 (List.nodup_singleton _) ?_
        intro a ha hb
        simp only [List.map_cons, List.map_nil, List.mem_singleton] at hb
        subst hb
        obtain ⟨c0, hc0, hpath⟩ := List.exists_of_mem_map ha
        exact hfp (hpath ▸ hinv.2 c0 hc0)
      · intro c hc2
        rcases List.mem_append.mp hc2 with h1 | h1
        · exact List.mem_cons_of_mem _ (hinv.2 c h1)
        · simp only [List.mem_singleton] at h1
          subst h1
          exact List.mem_cons_self _ _

theorem emitOne_stinv (env : Env) (header : String) (xf : String → String)
    (st : Option (List String × List Chunk)) (fp : String) (h : StInv st) :
    StInv (emitOne env header xf st fp) := by
  cases st with
  | none => exact stinv_none
  | some p =>
    rcases p with ⟨s0, c0⟩
    intro s c hsc
    exact emitOne_inv env header xf s0 c0 fp s c (h s0 c0 rfl) hsc

theorem foldl_emitOne_stinv (env : Env) (header : String) (xf : String → String) :
    ∀ (fps : List String) (st : Option (List String × List Chunk)), StInv st →
      StInv (fps.foldl (emitOne env header xf) st) := by
  intro fps
  induction fps with
  | nil => intro st h; exact h
  | cons fp fps ih =>
    intro st h
    exact ih _ (emitOne_stinv env header xf st fp h)

theorem foldl_imports_stinv (env : Env) (repo : String) :
    ∀ (imps : List String) (st : Option (List String × List Chunk)), StInv st →
      StInv (imps.foldl (fun acc imp => (resolve_import env imp repo).foldl
        (emitOne env (("=== IMPORT ") ++ imp ++ (" ===")) extract_full_type) acc) st) := by
  intro imps
  induction imps with
  | nil => intro st h; exact h
  | cons imp imps ih =>
    intro st h
    exact ih _ (foldl_emitOne_stinv env _ _ _ st h)

theorem processTarget_stinv (env : Env) (repo : String) (d : Int) (it : Bool)
    (lim : Option Int) (st : Option (List String × List Chunk)) (target : String)
    (h : StInv st) : StInv (processTarget env repo d it lim st target) := by
  cases st with
  | none => exact stinv_none
  | some p =>
    rcases p with ⟨seen, chunks⟩
    simp only [processTarget]
    by_cases hex : (!envExists env (pathJoin repo target)) = true
    · rw [if_pos hex]
      exact h
    · rw [if_neg hex]
      split
      · exact stinv_none
      · rename_i code hr
        have h2 := foldl_emitOne_stinv env ("=== EXTENDS / IMPLEMENTS ===") id
          (find_inheritance_dependencies env code repo) _
          (foldl_imports_stinv env repo (IMPORT_RE_findAll code.data) (some (seen, chunks)) h)
        split
        · split
          · exact foldl_emitOne_stinv env _ id _ _ (foldl_emitOne_stinv env _ id _ _ h2)
          · exact foldl_emitOne_stinv env _ id _ _ h2
        · split
          · exact foldl_emitOne_stinv env _ id _ _ h2
          · exact h2

/-- C4.  Within one run of `prepare_context_multi`, no two emitted chunks
carry the same source path: every path is recorded in the shared seen-set
when first emitted (whatever the target file or category) and every later
emission checks that set first. -/
theorem prepare_context_paths_nodup (env : Env) (repo : String) (target_files : List String)
    (depth : Int) (include_tests : Bool) (reverse_limit : Option Int)
    (seen : List String) (chunks : List Chunk)
    (h : prepare_context_multi env repo target_files depth include_tests reverse_limit =
      some (seen, chunks)) :
    (chunks.map Chunk.path).Nodup := by
  have base : StInv (some (([] : List String), ([] : List Chunk))) := by
    intro s c hsc
    simp only [Option.some.injEq, Prod.mk.injEq] at hsc
    rw [← hsc.1, ← hsc.2]
    exact ⟨List.nodup_nil, fun c hc => absurd hc (List.not_mem_nil c)⟩
  have hall : ∀ (ts : List String) (st : Option (List String × List Chunk)), StInv st →
      StInv (ts.foldl (processTarget env repo depth include_tests reverse_limit) st) := by
    intro ts
    induction ts with
    | nil => intro st hst; exact hst
    | cons t ts ih =>
      intro st hst
      exact ih _ (processTarget_stinv env repo depth include_tests reverse_limit st t hst)
  have := hall target_files (some ([], [])) base
  unfold prepare_context_multi at h
  exact (this seen chunks h).1

/-- A small repository for exercising the assembler: the target imports
`a.B`, which resolves to an existing file under the conventional source
root. -/
def envPrep : Env :=
  ⟨[],
   [(("repo"), ("A.java")), (("repo/src/main/java/a"), ("B.java"))],
   fun p =>
     if p = ("repo/A.java") then some ("package q;\nimport a.B;\nclass A \x7b\x7d\n")
     else if p = ("repo/src/main/java/a/B.java") then some ("class B \x7b int x; \x7d\n")
     else none,
   fun _ _ => false, fun _ _ => false⟩

/-- Witness for C4: a concrete assembler run that emits one import chunk;
its path list is duplicate-free. -/
theorem prepare_context_paths_nodup_witness :
    (List.map Chunk.path
      [⟨("=== IMPORT a.B ==="), ("repo/src/main/java/a/B.java"),
        ("class B \x7b int x; \x7d")⟩]).Nodup :=
  prepare_context_paths_nodup envPrep ("repo") [("A.java")] 1 false none
    [("repo/src/main/java/a/B.java")]
    [⟨("=== IMPORT a.B ==="), ("repo/src/main/java/a/B.java"),
      ("class B \x7b int x; \x7d")⟩]
    (by decide)
